import Mathlib

/-!
Verification development for the `thor` push-and-aggregation metrics gateway.

The Go source is shallowly embedded here:
  * `utils` (build.sh payload): `GroupingKeyFor`, `GroupingKeyForLabelPair`,
    `SanitizeLabels`, `TimestampsPresent`, `DecodeBase64`, `LabelPairs` sorting.
  * `storage/storage.go`: `MetricGroup`, `MetricStorage`, `WriteRequest`,
    `loop`, `processWriteRequest`, `validateConsistency`, `mergeGroups`,
    `mergeFamilies`, `mergeMetrics`, `mergeBuckets`.
  * `handler/push.go` and the `Delete` handler: the job-name handling fragment.

Modelling conventions:
  * Go maps are embedded as association lists `List (String × α)`; map
    semantics (unique keys) appear as `Nodup` hypotheses where they matter.
    Map insertion replaces in place or appends; deletion filters.
  * `float64` sample values and bucket bounds are embedded as `Int` (the
    kernel must evaluate them; `Rat` arithmetic does not kernel-reduce).
    Every float64 value these claims touch is integral, Go float64
    arithmetic is exact on them, and the embedded code only adds, replaces
    and compares these values.
  * `uint64` counters are embedded as `Nat` with an explicit `% 2 ^ 64` at
    every addition, matching Go's wrap-around semantics.
  * Go's `sort.Sort` (unstable, by label name) and `sort.Strings` are embedded
    as insertion sort; on inputs with pairwise-distinct sort keys every
    correct sort produces this result.
  * Channels: the worker loop's interaction with `wr.Done` is recorded in a
    `LoopOutcome` value (values sent, whether closed, whether the worker
    blocked on a send to a nil channel).
-/

namespace Thor

/-- The metric family types of `dto.MetricType`. -/
inductive MetricType where
  | counter
  | gauge
  | histogram
  | summary
  | untyped
deriving DecidableEq, Repr

/-- One histogram bucket (`dto.Bucket`): `UpperBound` (float64, embedded as
`Int`) and `CumulativeCount` (uint64, embedded as Nat, always `< 2 ^ 64`). -/
structure Bucket where
  upperBound : Int
  cumulativeCount : Nat
deriving DecidableEq, Repr

/-- `dto.Histogram`: `SampleCount` (uint64), `SampleSum` (float64), buckets. -/
structure HistogramData where
  sampleCount : Nat
  sampleSum : Int
  buckets : List Bucket
deriving DecidableEq, Repr

/-- `dto.Summary`: opaque to the merge engine (it is replaced wholesale). -/
structure SummaryData where
  sampleCount : Nat
  sampleSum : Int
  quantiles : List (Int × Int)
deriving DecidableEq, Repr

/-- The per-type payload of a `dto.Metric`. The Go struct has one optional
pointer per type; a well-formed metric carries exactly the payload selected by
its family's type, which this inductive captures. -/
inductive MetricValue where
  | counter (value : Int)
  | gauge (value : Int)
  | histogram (h : HistogramData)
  | summary (s : SummaryData)
  | untyped (value : Int)
deriving DecidableEq, Repr

/-- `dto.Metric`: label pairs (name, value), the optional `TimestampMs`, and
the typed payload. -/
structure Metric where
  labels : List (String × String)
  timestampMs : Option Int := none
  value : MetricValue
deriving DecidableEq, Repr

/-- `dto.MetricFamily`: name, help text, type, and the metric list. -/
structure MetricFamily where
  name : String
  help : Option String := none
  type : MetricType
  metrics : List Metric
deriving DecidableEq, Repr

/-- `storage.MetricGroup`: grouping labels plus a map family-name → family,
embedded as an association list. -/
structure MetricGroup where
  labels : List (String × String)
  families : List (String × MetricFamily)
deriving DecidableEq, Repr

/-- The `metricGroups` map of `storage.MetricStorage`: grouping key → group. -/
abbrev Store : Type := List (String × MetricGroup)

/-- `storage.WriteRequest`. `metricFamilies = none` marks a delete request
(Go: a nil map). `done : Bool` records whether the `Done` channel is present
(Go: `Done != nil`); `timestamp` is the informational arrival time. -/
structure WriteRequest where
  labels : List (String × String)
  timestamp : Int := 0
  metricFamilies : Option (List (String × MetricFamily))
  replace : Bool := false
  done : Bool := false
deriving DecidableEq, Repr

/-- The error kinds produced by the validator (Go: `fmt.Errorf` values,
distinguished here by their cause). -/
inductive Err where
  | typeConflict (name : String) (t1 t2 : MetricType)
  | timestampForbidden
  | inconsistentOnGather
deriving DecidableEq, Repr

/-- Whether an error is a type-conflict error. -/
def Err.isTypeConflict : Err → Bool
  | .typeConflict _ _ _ => true
  | _ => false

/-! ### Association-list embedding of Go maps -/

/-- Go map read `m[k]`: the value stored at key `k`, if any. -/
def lookupVal {α : Type} : List (String × α) → String → Option α
  | [], _ => none
  | (k, v) :: rest, n => if k = n then some v else lookupVal rest n

/-- Go map delete `delete(m, k)`. -/
def eraseKey {α : Type} (l : List (String × α)) (k : String) : List (String × α) :=
  l.filter (fun p => decide (p.1 ≠ k))

/-- Go map write `m[k] = v`: replace the entry in place, or add it. -/
def insertKey {α : Type} (l : List (String × α)) (k : String) (v : α) : List (String × α) :=
  if (lookupVal l k).isSome then
    l.map (fun p => if p.1 = k then (k, v) else p)
  else
    l ++ [(k, v)]

/-! ### String ordering

Go compares strings byte-wise; on valid UTF-8 this coincides with the
code-point-wise lexicographic order implemented here (UTF-8 preserves
code-point order). A hand-rolled comparison is used because it must
evaluate inside the kernel. -/

/-- Lexicographic less-or-equal on character lists. -/
def charsLe : List Char → List Char → Bool
  | [], _ => true
  | _ :: _, [] => false
  | a :: as, b :: bs =>
    if a < b then true else if b < a then false else charsLe as bs

/-- Lexicographic less-or-equal on strings (Go's `<=` on strings). -/
def strLe (a b : String) : Prop := charsLe a.data b.data = true

instance : DecidableRel strLe := fun a b => inferInstanceAs (Decidable (charsLe a.data b.data = true))

instance : IsTotal String strLe where
  total := by
    suffices h : ∀ as bs : List Char, charsLe as bs = true ∨ charsLe bs as = true by
      intro a b; exact h a.data b.data
    intro as
    induction as with
    | nil => intro bs; exact Or.inl rfl
    | cons a as ih =>
      intro bs
      cases bs with
      | nil => exact Or.inr rfl
      | cons b bs =>
        simp only [charsLe]
        rcases lt_trichotomy a b with h | h | h
        · left; simp [h]
        · subst h
          rcases ih bs with h2 | h2 <;> simp [lt_irrefl, h2]
        · right; simp [h]

instance : IsTrans String strLe where
  trans := by
    suffices h : ∀ as bs cs : List Char,
        charsLe as bs = true → charsLe bs cs = true → charsLe as cs = true by
      intro a b c hab hbc; exact h a.data b.data c.data hab hbc
    intro as
    induction as with
    | nil => intro bs cs _ _; rfl
    | cons a as ih =>
      intro bs cs hab hbc
      cases bs with
      | nil => simp [charsLe] at hab
      | cons b bs =>
        cases cs with
        | nil => simp [charsLe] at hbc
        | cons c cs =>
          simp only [charsLe] at hab hbc ⊢
          by_cases h1 : a < b
          · have hbc2 : b ≤ c := by
              by_contra hcb
              simp [lt_of_not_le hcb, not_lt_of_lt (lt_of_not_le hcb)] at hbc
            simp [lt_of_lt_of_le h1 hbc2, not_lt_of_lt (lt_of_lt_of_le h1 hbc2)]
          · by_cases h2 : b < a
            · simp [h1, h2] at hab
            · have hba : a = b := le_antisymm (le_of_not_lt h2) (le_of_not_lt h1)
              subst hba
              by_cases h3 : a < c
              · simp [h3]
              · by_cases h4 : c < a
                · simp [h3, h4] at hbc
                · simp only [h1, h2, if_false, lt_irrefl] at hab
                  simp only [h3, h4, if_false] at hbc ⊢
                  exact ih bs cs hab hbc

instance : IsAntisymm String strLe where
  antisymm := by
    suffices h : ∀ as bs : List Char, charsLe as bs = true → charsLe bs as = true → as = bs by
      intro a b hab hba
      cases a with
      | mk da =>
        cases b with
        | mk db => exact congrArg String.mk (h da db hab hba)
    intro as
    induction as with
    | nil =>
      intro bs _ hba
      cases bs with
      | nil => rfl
      | cons b bs => simp [charsLe] at hba
    | cons a as ih =>
      intro bs hab hba
      cases bs with
      | nil => simp [charsLe] at hab
      | cons b bs =>
        simp only [charsLe] at hab hba
        by_cases h1 : a < b
        · simp [not_lt_of_lt h1, h1] at hba
        · by_cases h2 : b < a
          · simp [h1, h2] at hab
          · have hba2 : a = b := le_antisymm (le_of_not_lt h2) (le_of_not_lt h1)
            subst hba2
            simp only [lt_irrefl, if_false] at hab hba
            rw [ih bs hab hba]

/-! ### utils.GroupingKeyFor -/

/-- `model.SeparatorByte`: a single NUL byte. -/
def sepString : String := "\x00"

/-- The `strings.Builder` loop body of `GroupingKeyFor`: emit
`name SEP value` for each sorted name, with `SEP` between entries and no
trailing `SEP` (Go: `if i+1 < len(labels)`). -/
def buildKey (value : String → String) : List String → String
  | [] => ""
  | [n] => n ++ sepString ++ value n
  | n :: m :: rest => n ++ sepString ++ value n ++ sepString ++ buildKey value (m :: rest)

/-- `utils.GroupingKeyFor`: empty map gives `""`; otherwise sort the label
names lexicographically (`sort.Strings`) and join names and values with the
NUL separator. Missing-key map reads give `""` (never hit: names come from
the map itself). -/
def groupingKeyFor (labels : List (String × String)) : String :=
  if labels.isEmpty then ""
  else
    buildKey (fun n => (lookupVal labels n).getD "")
      (List.insertionSort strLe (labels.map Prod.fst))

/-- `utils.GroupingKeyForLabelPair`: load the pairs into a map (later pairs
overwrite earlier ones) and take its grouping key. -/
def groupingKeyForLabelPair (labelPairs : List (String × String)) : String :=
  groupingKeyFor (labelPairs.foldl (fun acc p => insertKey acc p.1 p.2) [])

/-- The spec's construction of the grouping key, §3 "Grouping key", written
from the spec's words: sort the grouping label names lexicographically and
emit `name SEP value SEP name SEP value …` with a single NUL byte as SEP and
no trailing SEP; the empty label set yields the empty string. -/
def sepJoin : List String → String
  | [] => ""
  | [s] => s
  | s :: t :: rest => s ++ sepString ++ sepJoin (t :: rest)

/-- The spec-side grouping key (§3), to be compared with `groupingKeyFor`. -/
def specGroupingKey (labels : List (String × String)) : String :=
  sepJoin
    ((List.insertionSort strLe (labels.map Prod.fst)).flatMap
      (fun n => [n, (lookupVal labels n).getD ""]))

/-! ### utils.SanitizeLabels -/

/-- The ordering used by `utils.LabelPairs` (`Less` compares names). -/
def labelLe (a b : String × String) : Prop := strLe a.1 b.1

instance : DecidableRel labelLe := fun a b => inferInstanceAs (Decidable (strLe a.1 b.1))

instance : IsTotal (String × String) labelLe := ⟨fun a b => IsTotal.total (r := strLe) a.1 b.1⟩

instance : IsTrans (String × String) labelLe :=
  ⟨fun _ _ _ h1 h2 => IsTrans.trans (r := strLe) _ _ _ h1 h2⟩

/-- `sort.Sort(LabelPairs(m.Label))`: sort label pairs by name. -/
def sortByName (l : List (String × String)) : List (String × String) :=
  List.insertionSort labelLe l

/-- The per-label-pair loop of `SanitizeLabels`. Walks the metric's label
pairs carrying `gLabelsNotYetDone` and `hasInstanceLabel`; a pair whose name
is a pending grouping label gets its value overwritten and the grouping label
is marked done. When all grouping labels are done and an `instance` label was
seen, the loop exits early (`continue metric`), leaving the remaining pairs
untouched. Returns the (partially rewritten) pairs, the grouping labels still
pending, and the `instance` flag. -/
def sanitizePass (notYet : List (String × String)) (hasInst : Bool) :
    List (String × String) → List (String × String) × List (String × String) × Bool
  | [] => ([], notYet, hasInst)
  | (ln, lv) :: rest =>
    let v := match lookupVal notYet ln with
      | some gv => gv
      | none => lv
    let notYet1 := match lookupVal notYet ln with
      | some _ => eraseKey notYet ln
      | none => notYet
    let hasInst1 := hasInst || decide (ln = "instance")
    if notYet1.isEmpty && hasInst1 then
      ((ln, v) :: rest, notYet1, hasInst1)
    else
      let r := sanitizePass notYet1 hasInst1 rest
      ((ln, v) :: r.1, r.2.1, r.2.2)

/-- `utils.SanitizeLabels` restricted to one metric's label list: overwrite or
append every grouping label, append an `instance` label when absent, then sort
the pairs by name. (The append order of the leftover grouping labels is a Go
map iteration order; the final sort makes it immaterial for distinct names.) -/
def sanitizeMetricLabels (groupingLabels : List (String × String))
    (labels : List (String × String)) : List (String × String) :=
  let r := sanitizePass groupingLabels false labels
  let appended := r.1 ++ r.2.1
  let hasInst := r.2.2 || r.2.1.any (fun g => decide (g.1 = "instance"))
  sortByName (if hasInst then appended else appended ++ [("instance", "")])

/-- `utils.SanitizeLabels`: sanitize every metric of the family against the
grouping labels. Only the label lists are touched. -/
def sanitizeLabels (mf : MetricFamily) (groupingLabels : List (String × String)) :
    MetricFamily :=
  { mf with metrics :=
      mf.metrics.map (fun m => { m with labels := sanitizeMetricLabels groupingLabels m.labels }) }

/-- `utils.TimestampsPresent`: true iff any metric of any family carries a
`TimestampMs`. -/
def timestampsPresent (metricFamilies : List (String × MetricFamily)) : Bool :=
  metricFamilies.any (fun kf => kf.2.metrics.any (fun m => m.timestampMs.isSome))

/-! ### utils.DecodeBase64 -/

/-- The URL-and-filename-safe base64 alphabet (RFC 4648): the 6-bit value of a
character, or `none` if it is not in the alphabet. -/
def b64Val (c : Char) : Option Nat :=
  if 'A' ≤ c ∧ c ≤ 'Z' then some (c.toNat - 65)
  else if 'a' ≤ c ∧ c ≤ 'z' then some (c.toNat - 97 + 26)
  else if '0' ≤ c ∧ c ≤ '9' then some (c.toNat - 48 + 52)
  else if c = '-' then some 62
  else if c = '_' then some 63
  else none

/-- Reassemble bytes from 6-bit groups, RFC 4648 without padding: a final
group of 2 or 3 characters contributes 1 or 2 bytes, a final group of 1
character is an error (Go's default decoder, which does not reject unused
trailing bits). -/
def b64Bytes : List Nat → Option (List Nat)
  | [] => some []
  | [_] => none
  | [a, b] => some [a * 4 + b / 16]
  | [a, b, c] => some [a * 4 + b / 16, b % 16 * 16 + c / 4]
  | a :: b :: c :: d :: rest =>
    match b64Bytes rest with
    | some bytes => some ((a * 4 + b / 16) :: (b % 16 * 16 + c / 4) :: (c % 4 * 64 + d) :: bytes)
    | none => none

/-- `utils.DecodeBase64`: strip trailing `=`, then decode with the URL-safe
alphabet (`base64.RawURLEncoding`; newline characters are skipped, as in Go's
decoder). The decoded bytes are rendered as a string code-point-wise, which
agrees with Go's `string(b)` whenever the output is ASCII (all inputs used
here). -/
def decodeBase64 (s : String) : Option String :=
  let trimmed := (s.data.reverse.dropWhile (fun c => decide (c = '='))).reverse
  let chars := trimmed.filter (fun c => decide (c ≠ '\r') && decide (c ≠ '\n'))
  match chars.mapM b64Val with
  | none => none
  | some sextets =>
    match b64Bytes sextets with
    | none => none
    | some bytes => some ⟨bytes.map Char.ofNat⟩

/-! ### The merge engine (storage.go) -/

/-- Index of the last element satisfying `p`, mirroring a Go map built by a
forward loop (`mm[key] = elem`: later elements overwrite earlier ones). -/
def lastIdxWhere {α : Type} (p : α → Bool) : List α → Option Nat
  | [] => none
  | a :: rest =>
    match lastIdxWhere p rest with
    | some i => some (i + 1)
    | none => if p a then some 0 else none

/-- In-place update of the element at index `i` (no-op when out of range),
mirroring mutation through the pointer stored in the Go index map. -/
def modifyAt {α : Type} (l : List α) (i : Nat) (f : α → α) : List α :=
  match l.get? i with
  | some a => l.set i (f a)
  | none => l

/-- `storage.mergeBuckets`, inner loop over `b2`: a bucket whose upper bound
is a key of the map built from the original `b1` (`mm`) adds its cumulative
count (uint64, wrapping) into the mapped bucket; otherwise it is appended. -/
def mergeBucketsAux (b1 : List Bucket) :
    List Bucket → List Bucket → List Bucket → List Bucket × List Bucket
  | orig, app, [] => (orig, app)
  | orig, app, bb :: rest =>
    match lastIdxWhere (fun b => decide (b.upperBound = bb.upperBound)) b1 with
    | some i =>
      mergeBucketsAux b1
        (modifyAt orig i (fun ob =>
          { ob with cumulativeCount := (ob.cumulativeCount + bb.cumulativeCount) % 2 ^ 64 }))
        app rest
    | none => mergeBucketsAux b1 orig (app ++ [bb]) rest

/-- `storage.mergeBuckets`: merge `b2` into `b1` keyed by upper bound. -/
def mergeBuckets (b1 b2 : List Bucket) : List Bucket :=
  let r := mergeBucketsAux b1 b1 [] b2
  r.1 ++ r.2

/-- `storage.mergeMetrics`: combine two metrics of family type `mt`. Counters
add; gauges and untyped replace the value; summaries are replaced wholesale;
histograms add counts (uint64, wrapping) and sums and merge buckets. The
fall-through case covers payloads that do not match `mt`, where the Go code
would dereference a nil pointer; it is unreachable for type-correct metrics. -/
def mergeMetrics (mt : MetricType) (m1 m2 : Metric) : Metric :=
  match mt, m1.value, m2.value with
  | .counter, .counter v1, .counter v2 => { m1 with value := .counter (v1 + v2) }
  | .gauge, .gauge _, .gauge v2 => { m1 with value := .gauge v2 }
  | .histogram, .histogram h1, .histogram h2 =>
    let h3 : HistogramData :=
      { sampleCount := (h1.sampleCount + h2.sampleCount) % 2 ^ 64,
        sampleSum := h1.sampleSum + h2.sampleSum,
        buckets := mergeBuckets h1.buckets h2.buckets }
    { m1 with value := .histogram h3 }
  | .summary, .summary _, .summary s2 => { m1 with value := .summary s2 }
  | .untyped, .untyped _, .untyped v2 => { m1 with value := .untyped v2 }
  | _, _, _ => m1

/-- `storage.mergeFamilies`, inner loop over `f2.Metric`: a metric whose
grouping key is a key of the map built from the original `f1.Metric` (`mm`)
is merged into the mapped metric; otherwise it is appended. -/
def mergeMetricListsAux (t : MetricType) (m1s : List Metric) :
    List Metric → List Metric → List Metric → List Metric × List Metric
  | orig, app, [] => (orig, app)
  | orig, app, m2 :: rest =>
    match lastIdxWhere
        (fun m => decide (groupingKeyForLabelPair m.labels =
          groupingKeyForLabelPair m2.labels)) m1s with
    | some i => mergeMetricListsAux t m1s (modifyAt orig i (fun m1 => mergeMetrics t m1 m2)) app rest
    | none => mergeMetricListsAux t m1s orig (app ++ [m2]) rest

/-- The merged metric list of `storage.mergeFamilies`. -/
def mergeMetricLists (t : MetricType) (m1s m2s : List Metric) : List Metric :=
  let r := mergeMetricListsAux t m1s m1s [] m2s
  r.1 ++ r.2

/-- `storage.mergeFamilies`: merge `f2` into `f1`; `none` on a type mismatch
(Go returns an error and leaves `f1` untouched). -/
def mergeFamilies (f1 f2 : MetricFamily) : Option MetricFamily :=
  if f1.type ≠ f2.type then none
  else some { f1 with metrics := mergeMetricLists f1.type f1.metrics f2.metrics }

/-- `storage.mergeGroups`: fold `g2`'s families into `g1`'s family map. A
family name absent from `g1` is inserted; a present one is family-merged, and
a merge error (type mismatch) skips that family (Go logs and continues). -/
def mergeGroupFamilies (g1Fams g2Fams : List (String × MetricFamily)) :
    List (String × MetricFamily) :=
  g2Fams.foldl
    (fun acc kv =>
      match lookupVal acc kv.1 with
      | none => acc ++ [kv]
      | some f1 =>
        match mergeFamilies f1 kv.2 with
        | none => acc
        | some f1' => insertKey acc kv.1 f1')
    g1Fams

/-- `storage.mergeGroups` at group level: the stored group keeps its labels;
its family map absorbs `g2`'s families. -/
def mergeGroups (g1 g2 : MetricGroup) : MetricGroup :=
  { g1 with families := mergeGroupFamilies g1.families g2.families }

/-! ### The store (storage.go) -/

/-- `MetricStorage.processWriteRequest`: a nil family map deletes the group at
the request's grouping key; otherwise the new group replaces the stored one
when absent or when `Replace` is set, and is merged into it otherwise. -/
def processWriteRequest (ms : Store) (wr : WriteRequest) : Store :=
  let groupingKey := groupingKeyFor wr.labels
  match wr.metricFamilies with
  | none => eraseKey ms groupingKey
  | some fams =>
    let group : MetricGroup := { labels := wr.labels, families := fams }
    match lookupVal ms groupingKey with
    | none => insertKey ms groupingKey group
    | some prevGroup =>
      if wr.replace then insertKey ms groupingKey group
      else insertKey ms groupingKey (mergeGroups prevGroup group)

/-- `MetricStorage.GetMetricFamilies`: every family of every group (the Go
deep copies are identities in this functional embedding). -/
def getMetricFamilies (ms : Store) : List MetricFamily :=
  ms.flatMap (fun kg => kg.2.families.map Prod.snd)

/-- A metric's label signature: its label pairs up to order. -/
def metricSig (m : Metric) : List (String × String) := sortByName m.labels

/-- Modelled from the spec: the full gather pass of §4.4 step 6, performed in
the source by `prometheus.Gatherers.Gather` (library code not under `src/`).
It flattens every group's families into one list and fails when two families
share a name with different types (I3) or one family contains two metrics
with the same label signature (I4). -/
def gatherCheck (fams : List MetricFamily) : Option Err :=
  if fams.any (fun f => fams.any (fun g => decide (f.name = g.name) && decide (f.type ≠ g.type)))
  then some .inconsistentOnGather
  else if fams.any (fun f => decide ¬ (f.metrics.map metricSig).Nodup)
  then some .inconsistentOnGather
  else none

/-- The first type conflict found by `validateConsistency`'s scan: for each
request family `f2`, each stored group is probed at `f2`'s name field; a hit
with a different type is the error. -/
def findTypeConflict (ms : Store) (fams : List (String × MetricFamily)) : Option Err :=
  fams.findSome? (fun kf =>
    ms.findSome? (fun kg =>
      match lookupVal kg.2.families kf.2.name with
      | some f1 => if f1.type ≠ kf.2.type
          then some (.typeConflict f1.name f1.type kf.2.type) else none
      | none => none))

/-- `storage.validateConsistency`. Returns the validator error (if any) and
the write request as left behind (its families are sanitized in place exactly
on the paths that reach the sanitize loop). Delete requests pass untouched;
then the type-conflict scan, then the timestamp check, then sanitization;
without a `Done` channel the expensive check is skipped; otherwise the
request is applied to a copy of the store and the gather pass must succeed. -/
def validateConsistency (ms : Store) (wr : WriteRequest) : Option Err × WriteRequest :=
  match wr.metricFamilies with
  | none => (none, wr)
  | some fams =>
    match findTypeConflict ms fams with
    | some e => (some e, wr)
    | none =>
      if timestampsPresent fams then (some .timestampForbidden, wr)
      else
        let wr2 := { wr with
          metricFamilies := some (fams.map (fun kv => (kv.1, sanitizeLabels kv.2 wr.labels))) }
        if wr.done = false then (none, wr2)
        else
          match gatherCheck (getMetricFamilies (processWriteRequest ms wr2)) with
          | some e => (some e, wr2)
          | none => (none, wr2)

/-! ### The worker loop (storage.go) -/

/-- What one iteration of `MetricStorage.loop` does with a request: the store
it leaves, the validator error, the values sent on `wr.Done` (`some e` is an
error value; Go never sends a nil error), whether the channel was closed, and
whether the worker blocked forever on a send to a nil channel. -/
structure LoopOutcome where
  store : Store
  validateErr : Option Err
  sent : List (Option Err)
  closed : Bool
  blockedOnNilSend : Bool
deriving DecidableEq, Repr

/-- One iteration of `MetricStorage.loop`: validate; on success apply the
(sanitized) request; on failure execute `wr.Done <- err`, which blocks
forever when `Done` is nil. Afterwards the channel is closed when present. -/
def loopStep (ms : Store) (wr : WriteRequest) : LoopOutcome :=
  let r := validateConsistency ms wr
  match r.1 with
  | none =>
    { store := processWriteRequest ms r.2, validateErr := none, sent := [],
      closed := wr.done, blockedOnNilSend := false }
  | some e =>
    if wr.done then
      { store := ms, validateErr := some e, sent := [some e], closed := true,
        blockedOnNilSend := false }
    else
      { store := ms, validateErr := some e, sent := [], closed := false,
        blockedOnNilSend := true }

/-! ### The job-name fragment of the push and delete handlers -/

/-- The job-name handling shared by `handler.Push` and `handler.Delete`
(base64 variant controlled by the flag): the value bound into the grouping
labels as `labels["job"]`, or `none` when the handler responds 400 and
submits nothing. In the source the base64 branch binds the decoded name to a
new, shadowed `job` variable inside the `if` initializer, so on success the
outer (still encoded) value flows on. -/
def handlerJobOutcome (isBase64 : Bool) (jobParam : String) : Option String :=
  if isBase64 then
    match decodeBase64 jobParam with
    | none => none
    | some _ => if jobParam = "" then none else some jobParam
  else
    if jobParam = "" then none else some jobParam

/-! ### Spec-side views of bucket lists (for the histogram-merge claim) -/

/-- The cumulative count of the first bucket with upper bound `u`, if any. -/
def countAt : List Bucket → Int → Option Nat
  | [], _ => none
  | b :: rest, u =>
    if b.upperBound = u then some b.cumulativeCount else countAt rest u

/-- The spec's combination of two optional cumulative counts: summed on the
intersection of bounds, kept verbatim on either side alone. -/
def combineCount : Option Nat → Option Nat → Option Nat
  | some c1, some c2 => some (c1 + c2)
  | some c1, none => some c1
  | none, some c2 => some c2
  | none, none => none

/-- As `combineCount`, but with the uint64 wrap-around of the source. -/
def combineCountWrap : Option Nat → Option Nat → Option Nat
  | some c1, some c2 => some ((c1 + c2) % 2 ^ 64)
  | some c1, none => some c1
  | none, some c2 => some c2
  | none, none => none

/-! ### Concrete inputs used by the scenario claims and witnesses -/

/-- A one-metric counter family `foo` with no labels, value `v`. -/
def fooCounterFam (v : Int) : MetricFamily :=
  { name := "foo", type := .counter, metrics := [{ labels := [], value := .counter v }] }

/-- Scenario push 1: `{job=t}`, counter `foo` value 5, checked mode. -/
def c2wr1 : WriteRequest :=
  { labels := [("job", "t")], metricFamilies := some [("foo", fooCounterFam 5)], done := true }

/-- Scenario push 2: `{job=t}`, counter `foo` value 4, checked mode. -/
def c2wr2 : WriteRequest :=
  { labels := [("job", "t")], metricFamilies := some [("foo", fooCounterFam 4)], done := true }

/-- The merged metric the basic-counter scenario expects on scrape. -/
def c2expected : MetricFamily :=
  { name := "foo", type := .counter,
    metrics := [{ labels := [("instance", ""), ("job", "t")], value := .counter 9 }] }

/-- A stored one-metric gauge family `foo` (already sanitized). -/
def gaugeFooFam : MetricFamily :=
  { name := "foo", type := .gauge,
    metrics := [{ labels := [("instance", ""), ("job", "t")], value := .gauge 1 }] }

/-- The stored group `{job=t}` holding `gaugeFooFam`. -/
def gaugeFooGroup : MetricGroup :=
  { labels := [("job", "t")], families := [("foo", gaugeFooFam)] }

/-- A store holding `foo` as a gauge under the group `{job=t}`. -/
def msGaugeFoo : Store := [("job\x00t", gaugeFooGroup)]

/-- A request pushing `foo` as a counter whose metric carries a timestamp
(and, against `msGaugeFoo`, also a type conflict), without a done channel. -/
def wrTsConflict : WriteRequest :=
  { labels := [("job", "t")],
    metricFamilies := some [("foo",
      { name := "foo", type := .counter,
        metrics := [{ labels := [], timestampMs := some 0, value := .counter 1 }] })] }

/-- A timestamped one-metric counter family `bar`. -/
def barTsFam : MetricFamily :=
  { name := "bar", type := .counter,
    metrics := [{ labels := [], timestampMs := some 0, value := .counter 1 }] }

/-- A request pushing a timestamped counter `bar` (no type conflict against
`msGaugeFoo`), without a done channel. -/
def wrTsClean : WriteRequest :=
  { labels := [("job", "t")], metricFamilies := some [("bar", barTsFam)] }

/-- A request pushing `foo` as a counter, no timestamps, unsanitized labels
(used to observe whether `validateConsistency` sanitized on failure). -/
def wrConflictOnly : WriteRequest :=
  { labels := [("job", "t")], metricFamilies := some [("foo", fooCounterFam 1)], done := true }

/-- Two distinct grouping label maps with the same grouping key: the single
value of the first spells out the name/value/name/value sequence of the
second through embedded separator bytes. -/
def collideL1 : List (String × String) := [("a", "b\x00c\x00d")]

/-- See `collideL1`. -/
def collideL2 : List (String × String) := [("a", "b"), ("c", "d")]

/-- A counter family whose one metric carries the `collideL1` labels. -/
def collideFam1 : MetricFamily :=
  { name := "foo", type := .counter,
    metrics := [{ labels := collideL1, value := .counter 1 }] }

/-- A counter family whose one metric carries the `collideL2` labels. -/
def collideFam2 : MetricFamily :=
  { name := "foo", type := .counter,
    metrics := [{ labels := collideL2, value := .counter 2 }] }

/-- Histogram H1 of the spec's histogram-merge scenario. -/
def c8h1 : HistogramData :=
  { sampleCount := 2, sampleSum := 13, buckets := [{ upperBound := 20, cumulativeCount := 13 }] }

/-- Histogram H2 of the spec's histogram-merge scenario. -/
def c8h2 : HistogramData :=
  { sampleCount := 3, sampleSum := 40,
    buckets := [{ upperBound := 20, cumulativeCount := 13 },
                { upperBound := 40, cumulativeCount := 27 }] }

/-- A metric carrying `c8h1`. -/
def c8m1 : Metric := { labels := [], value := .histogram c8h1 }

/-- A metric carrying `c8h2`. -/
def c8m2 : Metric := { labels := [], value := .histogram c8h2 }

/-! ### Theorems -/

/-- Claim C2: starting from an empty store, a checked write of counter family
`foo` value 5 under grouping labels `{job=t}` followed by a checked write of
counter `foo` value 4 under the same labels passes validation both times and
leaves the store with exactly one family `foo` holding exactly one metric of
counter value 9 whose label pairs are exactly `{instance="", job="t"}`. -/
theorem c2_counter_accumulation :
    (loopStep [] c2wr1).validateErr = none ∧
    (loopStep (loopStep [] c2wr1).store c2wr2).validateErr = none ∧
    getMetricFamilies (loopStep (loopStep [] c2wr1).store c2wr2).store = [c2expected] := by
  decide

/-- Claim C4 (code bug evaluated at the failing input): for the base64
handler variants, the job parameter `"dGVzdA"` decodes to `"test"`, yet the
handler proceeds with the still-encoded `"dGVzdA"` as the `job` grouping
label — the decoded value is bound to a shadowed variable and dropped — while
an invalid base64 job parameter is correctly rejected (400, no submission). -/
theorem c4_base64_job_shadowed :
    decodeBase64 "dGVzdA" = some "test" ∧
    handlerJobOutcome true "dGVzdA" = some "dGVzdA" ∧
    ("dGVzdA" : String) ≠ "test" ∧
    handlerJobOutcome true "!" = none := by
  decide

/-- Claim C10: the grouping-key function is not injective: `collideL1` and
`collideL2` are distinct label maps with the same grouping key (the single
value of the first embeds the separator byte), the label-pair variant used by
`mergeFamilies` collides on them too, and `mergeFamilies` consequently
conflates their two metrics — with different label signatures — into one. -/
theorem c10_grouping_key_not_injective :
    collideL1 ≠ collideL2 ∧
    groupingKeyFor collideL1 = groupingKeyFor collideL2 ∧
    groupingKeyForLabelPair collideL1 = groupingKeyForLabelPair collideL2 ∧
    mergeFamilies collideFam1 collideFam2 =
      some { name := "foo", type := .counter,
             metrics := [{ labels := collideL1, value := .counter 3 }] } := by
  decide

/-- Claim C3, counterexample: a non-delete request whose metric carries a
timestamp but which also conflicts in type with a stored family is rejected
with the type-conflict error, not `timestampForbidden` — the type-conflict
scan runs first. -/
theorem c3_timestamp_masked_by_type_conflict :
    wrTsConflict.metricFamilies ≠ none ∧
    timestampsPresent (wrTsConflict.metricFamilies.getD []) = true ∧
    (validateConsistency msGaugeFoo wrTsConflict).1 =
      some (.typeConflict "foo" .gauge .counter) ∧
    some (Err.typeConflict "foo" .gauge .counter) ≠ some Err.timestampForbidden := by
  decide

/-- Claim C5, counterexample: on a successful checked write the worker sends
no value on the done channel at all (it only closes it), rather than sending
a nil error as claimed. -/
theorem c5_no_nil_sent_on_success :
    c2wr1.done = true ∧
    (validateConsistency [] c2wr1).1 = none ∧
    (loopStep [] c2wr1).sent = [] ∧
    ([] : List (Option Err)) ≠ [none] := by
  decide

/-- Claim C6, counterexample: on a type-conflict failure `validateConsistency`
returns the request with its families untouched — sanitization did not
happen, although sanitizing the family would have changed it (its metric
lacks the grouping and `instance` labels). -/
theorem c6_no_sanitize_on_type_conflict :
    (validateConsistency msGaugeFoo wrConflictOnly).1 =
      some (.typeConflict "foo" .gauge .counter) ∧
    (validateConsistency msGaugeFoo wrConflictOnly).2 = wrConflictOnly ∧
    sanitizeLabels (fooCounterFam 1) wrConflictOnly.labels ≠ fooCounterFam 1 := by
  decide

/-- If some element of the list produces a value, `findSome?` produces one. -/
theorem findSome_isSome_of_mem {α β : Type} (f : α → Option β) {l : List α} {a : α} {b : β}
    (ha : a ∈ l) (hf : f a = some b) : ∃ c, l.findSome? f = some c := by
  induction l with
  | nil => cases ha
  | cons x xs ih =>
    cases hx : f x with
    | some c => exact ⟨c, by simp [List.findSome?_cons, hx]⟩
    | none =>
      have ha2 : a ∈ xs := by
        rcases List.mem_cons.mp ha with h | h
        · rw [h, hx] at hf; cases hf
        · exact h
      rcases ih ha2 with ⟨c, hc⟩
      exact ⟨c, by simp [List.findSome?_cons, hx, hc]⟩

/-- Any value produced by `findSome?` satisfies every property that all
outputs of the probe function satisfy. -/
theorem findSome_prop {α β : Type} (f : α → Option β) (P : β → Prop) {l : List α} {c : β}
    (hP : ∀ x b, f x = some b → P b) (hc : l.findSome? f = some c) : P c := by
  induction l with
  | nil => simp [List.findSome?] at hc
  | cons x xs ih =>
    cases hx : f x with
    | some d =>
      rw [List.findSome?_cons, hx] at hc
      cases hc
      exact hP x c hx
    | none =>
      rw [List.findSome?_cons, hx] at hc
      exact ih hc

/-- On a validator error the worker leaves the store untouched. -/
theorem loopStep_store_of_err {ms : Store} {wr : WriteRequest} {e : Err}
    (h : (validateConsistency ms wr).1 = some e) : (loopStep ms wr).store = ms := by
  cases hd : wr.done <;> simp [loopStep, h, hd]

/-- Claim C1: if the store holds a family whose name matches a family of a
non-delete write request but whose type differs, the validator fails with a
type-conflict error and one worker iteration leaves the store mapping
exactly as it was (the write is not applied). -/
theorem type_conflict_rejected_without_mutation (ms : Store) (wr : WriteRequest)
    (fams : List (String × MetricFamily)) (gk : String) (g : MetricGroup)
    (f1 : MetricFamily) (k2 : String) (f2 : MetricFamily)
    (hwf : wr.metricFamilies = some fams)
    (hg : (gk, g) ∈ ms)
    (hl : lookupVal g.families f2.name = some f1)
    (hf2 : (k2, f2) ∈ fams)
    (ht : f1.type ≠ f2.type) :
    (∃ e, (validateConsistency ms wr).1 = some e ∧ e.isTypeConflict = true) ∧
      (loopStep ms wr).store = ms := by
  have hinner : (fun kg : String × MetricGroup =>
      match lookupVal kg.2.families f2.name with
      | some f1' => if f1'.type ≠ f2.type
          then some (Err.typeConflict f1'.name f1'.type f2.type) else none
      | none => none) (gk, g) = some (Err.typeConflict f1.name f1.type f2.type) := by
    simp only [hl]
    rw [if_pos ht]
  have houter : ∃ c, findTypeConflict ms fams = some c := by
    rcases findSome_isSome_of_mem
      (fun kg : String × MetricGroup =>
        match lookupVal kg.2.families f2.name with
        | some f1' => if f1'.type ≠ f2.type
            then some (Err.typeConflict f1'.name f1'.type f2.type) else none
        | none => none) hg hinner with ⟨c, hc⟩
    exact findSome_isSome_of_mem
      (fun kf : String × MetricFamily =>
        ms.findSome? (fun kg : String × MetricGroup =>
          match lookupVal kg.2.families kf.2.name with
          | some f1' => if f1'.type ≠ kf.2.type
              then some (Err.typeConflict f1'.name f1'.type kf.2.type) else none
          | none => none)) hf2 hc
  rcases houter with ⟨c, hc⟩
  have hshape : c.isTypeConflict = true := by
    refine findSome_prop _ (fun e => e.isTypeConflict = true) ?_ hc
    intro kf b hb
    refine findSome_prop _ (fun e => e.isTypeConflict = true) ?_ hb
    intro kg b2 hb2
    split at hb2
    · split at hb2
      · cases hb2; rfl
      · cases hb2
    · cases hb2
  have hvc : (validateConsistency ms wr).1 = some c := by
    simp [validateConsistency, hwf, hc]
  exact ⟨⟨c, hvc, hshape⟩, loopStep_store_of_err hvc⟩

/-- Claim C1, witness: the gauge-vs-counter conflict on family `foo`. -/
theorem type_conflict_rejected_without_mutation_witness :
    (∃ e, (validateConsistency msGaugeFoo wrConflictOnly).1 = some e ∧
      e.isTypeConflict = true) ∧
      (loopStep msGaugeFoo wrConflictOnly).store = msGaugeFoo :=
  type_conflict_rejected_without_mutation msGaugeFoo wrConflictOnly
    [("foo", fooCounterFam 1)] "job\x00t" gaugeFooGroup gaugeFooFam "foo" (fooCounterFam 1)
    (by decide) (by decide) (by decide) (by decide) (by decide)

/-- Claim C3 (amended): a non-delete request containing a timestamped metric
is always rejected by the validator — with the `timestampForbidden` error
whenever no stored family conflicts in type with a request family (that scan
runs first and wins) — and one worker iteration never applies it to the
store, also when the request carries no done channel. -/
theorem timestamp_rejected_after_type_scan (ms : Store) (wr : WriteRequest)
    (fams : List (String × MetricFamily))
    (hwf : wr.metricFamilies = some fams)
    (hts : timestampsPresent fams = true) :
    (∃ e, (validateConsistency ms wr).1 = some e) ∧
      (loopStep ms wr).store = ms ∧
      (findTypeConflict ms fams = none →
        (validateConsistency ms wr).1 = some Err.timestampForbidden) := by
  cases hS : findTypeConflict ms fams with
  | some e =>
    have hvc : (validateConsistency ms wr).1 = some e := by
      simp [validateConsistency, hwf, hS]
    refine ⟨⟨e, hvc⟩, loopStep_store_of_err hvc, ?_⟩
    intro h
    cases h
  | none =>
    have hvc : (validateConsistency ms wr).1 = some Err.timestampForbidden := by
      simp [validateConsistency, hwf, hS, hts]
    exact ⟨⟨_, hvc⟩, loopStep_store_of_err hvc, fun _ => hvc⟩

/-- Claim C3, witness: a timestamped push of family `bar` (no type conflict,
no done channel) is rejected with `timestampForbidden` and not applied. -/
theorem timestamp_rejected_after_type_scan_witness :
    (∃ e, (validateConsistency msGaugeFoo wrTsClean).1 = some e) ∧
      (loopStep msGaugeFoo wrTsClean).store = msGaugeFoo ∧
      (findTypeConflict msGaugeFoo [("bar", barTsFam)] = none →
        (validateConsistency msGaugeFoo wrTsClean).1 = some Err.timestampForbidden) :=
  timestamp_rejected_after_type_scan msGaugeFoo wrTsClean [("bar", barTsFam)]
    (by decide) (by decide)

/-- Claim C5 (amended): per worker iteration — with a done channel, exactly
one value (the error) is sent and the channel closed on failure, while on
success nothing is sent and the channel is just closed; without a done
channel nothing happens on success, but on failure the worker attempts the
send `wr.Done <- err` on the nil channel and blocks, leaving the store
untouched and the channel unclosed. -/
theorem loop_done_channel_protocol (ms : Store) (wr : WriteRequest) :
    ((validateConsistency ms wr).1 = none → wr.done = true →
      (loopStep ms wr).sent = [] ∧ (loopStep ms wr).closed = true ∧
        (loopStep ms wr).blockedOnNilSend = false) ∧
    (∀ e, (validateConsistency ms wr).1 = some e → wr.done = true →
      (loopStep ms wr).sent = [some e] ∧ (loopStep ms wr).closed = true ∧
        (loopStep ms wr).blockedOnNilSend = false) ∧
    ((validateConsistency ms wr).1 = none → wr.done = false →
      (loopStep ms wr).sent = [] ∧ (loopStep ms wr).closed = false ∧
        (loopStep ms wr).blockedOnNilSend = false) ∧
    (∀ e, (validateConsistency ms wr).1 = some e → wr.done = false →
      (loopStep ms wr).sent = [] ∧ (loopStep ms wr).closed = false ∧
        (loopStep ms wr).blockedOnNilSend = true ∧ (loopStep ms wr).store = ms) := by
  refine ⟨?_, ?_, ?_, ?_⟩
  · intro h hd; simp [loopStep, h, hd]
  · intro e h hd; simp [loopStep, h, hd]
  · intro h hd; simp [loopStep, h, hd]
  · intro e h hd; simp [loopStep, h, hd]

/-- Claim C5, witness: a failing validation (timestamped metric) of a request
without a done channel makes the worker block on the nil-channel send. -/
theorem loop_done_channel_protocol_witness :
    (loopStep [] wrTsClean).sent = [] ∧ (loopStep [] wrTsClean).closed = false ∧
      (loopStep [] wrTsClean).blockedOnNilSend = true ∧
      (loopStep [] wrTsClean).store = [] :=
  (loop_done_channel_protocol [] wrTsClean).2.2.2 Err.timestampForbidden
    (by decide) (by decide)

/-- Claim C6 (amended): `validateConsistency` sanitizes the request's families
exactly when the request is a non-delete that passes both the type-conflict
scan and the timestamp check — in particular also in unchecked mode and on a
failing deep gather check; on a type-conflict or timestamp failure the
request is returned with its families untouched. -/
theorem sanitize_exactly_when_cheap_checks_pass (ms : Store) (wr : WriteRequest)
    (fams : List (String × MetricFamily))
    (hwf : wr.metricFamilies = some fams) :
    ((findTypeConflict ms fams = none ∧ timestampsPresent fams = false) →
      (validateConsistency ms wr).2.metricFamilies =
        some (fams.map (fun kv => (kv.1, sanitizeLabels kv.2 wr.labels)))) ∧
    ((findTypeConflict ms fams ≠ none ∨ timestampsPresent fams = true) →
      (validateConsistency ms wr).2 = wr) := by
  constructor
  · rintro ⟨hnc, hnt⟩
    cases hd : wr.done with
    | false => simp [validateConsistency, hwf, hnc, hnt, hd]
    | true =>
      simp [validateConsistency, hwf, hnc, hnt, hd]
      split <;> simp
  · intro h
    cases hS : findTypeConflict ms fams with
    | some e => simp [validateConsistency, hwf, hS]
    | none =>
      rcases h with h | h
      · exact absurd hS h
      · simp [validateConsistency, hwf, hS, h]

/-- Claim C6, witness: a clean push of counter `foo` against the empty store
comes back from the validator with its family sanitized. -/
theorem sanitize_exactly_when_cheap_checks_pass_witness :
    (findTypeConflict ([] : Store) [("foo", fooCounterFam 5)] = none ∧
      timestampsPresent [("foo", fooCounterFam 5)] = false) ∧
    (validateConsistency [] c2wr1).2.metricFamilies =
      some ([("foo", fooCounterFam 5)].map
        (fun kv => (kv.1, sanitizeLabels kv.2 c2wr1.labels))) :=
  ⟨⟨by decide, by decide⟩,
    (sanitize_exactly_when_cheap_checks_pass [] c2wr1 [("foo", fooCounterFam 5)]
      (by decide)).1 ⟨by decide, by decide⟩⟩

/-- A successful map read names a member pair. -/
theorem lookupVal_mem {α : Type} {l : List (String × α)} {n : String} {v : α}
    (h : lookupVal l n = some v) : (n, v) ∈ l := by
  induction l with
  | nil => cases h
  | cons p rest ih =>
    obtain ⟨k, w⟩ := p
    simp only [lookupVal] at h
    by_cases hk : k = n
    · subst hk
      rw [if_pos rfl] at h
      cases h
      exact List.mem_cons_self _ _
    · rw [if_neg hk] at h
      exact List.mem_cons_of_mem _ (ih h)

/-- A map read fails exactly when the key is absent. -/
theorem lookupVal_none_iff {α : Type} {l : List (String × α)} {n : String} :
    lookupVal l n = none ↔ n ∉ l.map Prod.fst := by
  induction l with
  | nil => simp [lookupVal]
  | cons p rest ih =>
    obtain ⟨k, w⟩ := p
    simp only [lookupVal, List.map_cons, List.mem_cons]
    by_cases hk : k = n
    · simp [hk]
    · rw [if_neg hk, ih]
      constructor
      · intro h hor
        rcases hor with h1 | h1
        · exact hk h1.symm
        · exact h h1
      · intro h h1
        exact h (Or.inr h1)

/-- With pairwise-distinct keys, membership determines the map read. -/
theorem lookupVal_of_mem_nodup {α : Type} {l : List (String × α)} {n : String} {v : α}
    (hn : (l.map Prod.fst).Nodup) (h : (n, v) ∈ l) : lookupVal l n = some v := by
  induction l with
  | nil => cases h
  | cons p rest ih =>
    obtain ⟨k, w⟩ := p
    rw [List.map_cons, List.nodup_cons] at hn
    rcases List.mem_cons.mp h with h1 | h1
    · cases h1
      simp [lookupVal]
    · have hkn : ¬ k = n := by
        intro he
        subst he
        exact hn.1 (List.mem_map.mpr ⟨(k, v), h1, rfl⟩)
      simp [lookupVal, hkn, ih hn.2 h1]

/-- Map reads agree across a permutation of a duplicate-free map. -/
theorem lookupVal_perm {α : Type} {l1 l2 : List (String × α)}
    (hn : (l1.map Prod.fst).Nodup) (hp : l1.Perm l2) (n : String) :
    lookupVal l1 n = lookupVal l2 n := by
  have hn2 : (l2.map Prod.fst).Nodup := ((hp.map Prod.fst).nodup_iff).mp hn
  cases h1 : lookupVal l1 n with
  | some v => exact (lookupVal_of_mem_nodup hn2 (hp.mem_iff.mp (lookupVal_mem h1))).symm
  | none =>
    cases h2 : lookupVal l2 n with
    | none => rfl
    | some v =>
      have hmem : (n, v) ∈ l1 := hp.mem_iff.mpr (lookupVal_mem h2)
      exact absurd (List.mem_map.mpr ⟨(n, v), hmem, rfl⟩) (lookupVal_none_iff.mp h1)

/-- The builder loop of `GroupingKeyFor` emits exactly the spec's
NUL-separated name/value sequence. -/
theorem buildKey_eq_sepJoin (v : String → String) :
    ∀ names : List String, buildKey v names = sepJoin (names.flatMap (fun n => [n, v n])) := by
  intro names
  induction names with
  | nil => rfl
  | cons n rest ih =>
    cases rest with
    | nil => rfl
    | cons m rest2 =>
      simp only [buildKey, List.flatMap_cons, List.cons_append, List.nil_append] at ih ⊢
      rw [ih]
      simp [sepJoin, String.append_assoc]

/-- The builder result depends only on the values of the emitted names. -/
theorem buildKey_congr {v1 v2 : String → String} :
    ∀ names : List String, (∀ n ∈ names, v1 n = v2 n) →
      buildKey v1 names = buildKey v2 names := by
  intro names
  induction names with
  | nil => intro _; rfl
  | cons n rest ih =>
    intro h
    cases rest with
    | nil => simp [buildKey, h n (by simp)]
    | cons m rest2 =>
      simp only [buildKey]
      rw [h n (by simp), ih (fun x hx => h x (List.mem_cons_of_mem _ hx))]

/-- Claim C7: the grouping key equals the spec's construction — sort the
label names lexicographically and join names and values with a single NUL
byte and no trailing separator — the empty map yields the empty string, and
the key is insertion-order independent: permuting a duplicate-free label map
leaves it unchanged. -/
theorem grouping_key_matches_spec :
    (∀ l : List (String × String), groupingKeyFor l = specGroupingKey l) ∧
    groupingKeyFor [] = "" ∧
    (∀ l1 l2 : List (String × String), (l1.map Prod.fst).Nodup → l1.Perm l2 →
      groupingKeyFor l1 = groupingKeyFor l2) := by
  refine ⟨?_, rfl, ?_⟩
  · intro l
    cases l with
    | nil => rfl
    | cons p rest =>
      simp only [groupingKeyFor, specGroupingKey, List.isEmpty_cons, Bool.false_eq_true,
        if_false]
      exact buildKey_eq_sepJoin _ _
  · intro l1 l2 hn hp
    cases l1 with
    | nil =>
      have h2 : l2 = [] := List.Perm.eq_nil hp.symm
      rw [h2]
    | cons p rest =>
      have hne2 : l2.isEmpty = false := by
        cases l2 with
        | nil => cases List.Perm.eq_nil hp
        | cons q rest2 => rfl
      have hnames : List.insertionSort strLe ((p :: rest).map Prod.fst) =
          List.insertionSort strLe (l2.map Prod.fst) := by
        refine List.eq_of_perm_of_sorted ?_ (List.sorted_insertionSort _ _)
          (List.sorted_insertionSort _ _)
        exact (List.perm_insertionSort _ _).trans ((hp.map _).trans
          (List.perm_insertionSort _ _).symm)
      simp only [groupingKeyFor, List.isEmpty_cons, hne2, Bool.false_eq_true, if_false]
      rw [hnames]
      exact buildKey_congr _ (fun n _ => by rw [lookupVal_perm hn hp n])

/-- Claim C7, witness: permuting a two-label map leaves its key unchanged,
and the key of a concrete map matches the spec construction. -/
theorem grouping_key_matches_spec_witness :
    groupingKeyFor [("job", "t")] = specGroupingKey [("job", "t")] ∧
    (([("b", "2"), ("a", "1")] : List (String × String)).map Prod.fst).Nodup ∧
    groupingKeyFor [("b", "2"), ("a", "1")] = groupingKeyFor [("a", "1"), ("b", "2")] :=
  ⟨grouping_key_matches_spec.1 [("job", "t")], by decide,
    grouping_key_matches_spec.2.2 [("b", "2"), ("a", "1")] [("a", "1"), ("b", "2")]
      (by decide) (by decide)⟩


/-- A successful `lastIdxWhere` names an element satisfying the test. -/
theorem lastIdxWhere_get {α : Type} {p : α → Bool} :
    ∀ {l : List α} {i : Nat}, lastIdxWhere p l = some i →
      ∃ x, l.get? i = some x ∧ p x = true := by
  intro l
  induction l with
  | nil => intro i h; cases h
  | cons a rest ih =>
    intro i h
    simp only [lastIdxWhere] at h
    cases hrec : lastIdxWhere p rest with
    | some j =>
      rw [hrec] at h
      cases h
      rcases ih hrec with ⟨x, hx, hpx⟩
      exact ⟨x, hx, hpx⟩
    | none =>
      rw [hrec] at h
      by_cases hp : p a = true
      · rw [if_pos hp] at h
        cases h
        exact ⟨a, rfl, hp⟩
      · rw [if_neg hp] at h
        cases h

/-- A failing `lastIdxWhere` means no element satisfies the test. -/
theorem lastIdxWhere_none {α : Type} {p : α → Bool} :
    ∀ {l : List α}, lastIdxWhere p l = none → ∀ x ∈ l, p x = false := by
  intro l
  induction l with
  | nil => intro _ x hx; cases hx
  | cons a rest ih =>
    intro h x hx
    simp only [lastIdxWhere] at h
    cases hrec : lastIdxWhere p rest with
    | some j => rw [hrec] at h; cases h
    | none =>
      rw [hrec] at h
      by_cases hp : p a = true
      · rw [if_pos hp] at h; cases h
      · rcases List.mem_cons.mp hx with h1 | h1
        · subst h1
          simp only [Bool.not_eq_true] at hp
          exact hp
        · exact ih hrec x h1

/-- `modifyAt` at index 0 of a cons. -/
theorem modifyAt_cons_zero {α : Type} (y : α) (ys : List α) (f : α → α) :
    modifyAt (y :: ys) 0 f = f y :: ys := rfl

/-- `modifyAt` at a successor index of a cons. -/
theorem modifyAt_cons_succ {α : Type} (y : α) (ys : List α) (j : Nat) (f : α → α) :
    modifyAt (y :: ys) (j + 1) f = y :: modifyAt ys j f := by
  simp only [modifyAt, List.get?_cons_succ]
  cases ys.get? j with
  | none => rfl
  | some a => rfl

/-- `modifyAt` preserves any projection the update function preserves. -/
theorem modifyAt_map {α β : Type} (g : α → β) (f : α → α) (hf : ∀ x, g (f x) = g x) :
    ∀ (l : List α) (i : Nat), (modifyAt l i f).map g = l.map g := by
  intro l
  induction l with
  | nil => intro i; rfl
  | cons y ys ih =>
    intro i
    cases i with
    | zero => simp [modifyAt_cons_zero, hf]
    | succ j => simp [modifyAt_cons_succ, ih]

/-- Reading a count from a concatenation reads the left part first. -/
theorem countAt_append (l1 l2 : List Bucket) (u : Int) :
    countAt (l1 ++ l2) u =
      match countAt l1 u with
      | some c => some c
      | none => countAt l2 u := by
  induction l1 with
  | nil => simp [countAt]
  | cons b rest ih =>
    by_cases hb : b.upperBound = u
    · simp [countAt, hb]
    · simp [countAt, hb, ih]

/-- A count is absent exactly when no bucket carries the bound. -/
theorem countAt_none_iff {l : List Bucket} {u : Int} :
    countAt l u = none ↔ ∀ x ∈ l, x.upperBound ≠ u := by
  induction l with
  | nil => simp [countAt]
  | cons b rest ih =>
    by_cases hb : b.upperBound = u
    · simp [countAt, hb]
    · simp [countAt, hb, ih]

/-- A present count names a bucket with that bound and count. -/
theorem countAt_some_mem {u : Int} {c : Nat} :
    ∀ {l : List Bucket}, countAt l u = some c →
      ∃ x ∈ l, x.upperBound = u ∧ x.cumulativeCount = c := by
  intro l
  induction l with
  | nil => intro h; cases h
  | cons b rest ih =>
    intro h
    by_cases hb : b.upperBound = u
    · rw [countAt, if_pos hb] at h
      cases h
      exact ⟨b, List.mem_cons_self _ _, hb, rfl⟩
    · rw [countAt, if_neg hb] at h
      rcases ih h with ⟨x, hx, hub, hc⟩
      exact ⟨x, List.mem_cons_of_mem _ hx, hub, hc⟩

/-- Modifying an element of a different bound leaves a count unchanged. -/
theorem countAt_modify_ne {f : Bucket → Bucket}
    (hf : ∀ y, (f y).upperBound = y.upperBound) :
    ∀ (l : List Bucket) (i : Nat) (x : Bucket), l.get? i = some x →
      ∀ {u : Int}, x.upperBound ≠ u → countAt (modifyAt l i f) u = countAt l u := by
  intro l
  induction l with
  | nil => intro i x hx; cases hx
  | cons y ys ih =>
    intro i x hx u hub
    cases i with
    | zero =>
      cases hx
      rw [modifyAt_cons_zero, countAt, countAt, hf]
      rw [if_neg hub, if_neg hub]
    | succ j =>
      rw [modifyAt_cons_succ, countAt, countAt]
      rw [List.get?_cons_succ] at hx
      by_cases hy : y.upperBound = u
      · rw [if_pos hy, if_pos hy]
      · rw [if_neg hy, if_neg hy]
        exact ih j x hx hub

/-- With duplicate-free bounds, modifying the unique bucket of bound `u`
updates the count read at `u`, which was the bucket's count before. -/
theorem countAt_modify_eq {f : Bucket → Bucket}
    (hf : ∀ y, (f y).upperBound = y.upperBound) :
    ∀ (l : List Bucket) (i : Nat) (x : Bucket), (l.map Bucket.upperBound).Nodup →
      l.get? i = some x → ∀ {u : Int}, x.upperBound = u →
      countAt (modifyAt l i f) u = some (f x).cumulativeCount ∧
        countAt l u = some x.cumulativeCount := by
  intro l
  induction l with
  | nil => intro i x _ hx; cases hx
  | cons y ys ih =>
    intro i x hn hx u hub
    rw [List.map_cons, List.nodup_cons] at hn
    cases i with
    | zero =>
      cases hx
      rw [modifyAt_cons_zero]
      constructor
      · rw [countAt, hf, if_pos hub]
      · rw [countAt, if_pos hub]
    | succ j =>
      rw [List.get?_cons_succ] at hx
      have hxmem : x ∈ ys := List.get?_mem hx
      have hyne : y.upperBound ≠ u := by
        intro he
        exact hn.1 (by rw [he, ← hub]; exact List.mem_map.mpr ⟨x, hxmem, rfl⟩)
      rw [modifyAt_cons_succ]
      have hres := ih j x hn.2 hx hub
      constructor
      · rw [countAt, if_neg hyne]
        exact hres.1
      · rw [countAt, if_neg hyne]
        exact hres.2


/-- The update applied to a matched bucket keeps its upper bound. -/
theorem addCount_upperBound (c : Nat) :
    ∀ y : Bucket,
      ({ y with cumulativeCount := (y.cumulativeCount + c) % 2 ^ 64 } : Bucket).upperBound =
        y.upperBound := by
  intro y; rfl

/-- The inner loop of `mergeBuckets`, characterized per upper bound: reading
any bound from the final bucket list combines (with uint64 wrap-around) what
the accumulated list and the unprocessed `b2` buckets hold at that bound. -/
theorem mergeBucketsAux_countAt (b1 : List Bucket)
    (hn1 : (b1.map Bucket.upperBound).Nodup) :
    ∀ (b2s orig app : List Bucket),
      orig.map Bucket.upperBound = b1.map Bucket.upperBound →
      (b2s.map Bucket.upperBound).Nodup →
      (∀ x ∈ app, ∀ y ∈ b2s, x.upperBound ≠ y.upperBound) →
      ∀ u, countAt ((mergeBucketsAux b1 orig app b2s).1 ++
          (mergeBucketsAux b1 orig app b2s).2) u
        = combineCountWrap (countAt (orig ++ app) u) (countAt b2s u) := by
  intro b2s
  induction b2s with
  | nil =>
    intro orig app hbounds hn2 hdisj u
    rw [mergeBucketsAux]
    cases h : countAt (orig ++ app) u <;> simp [countAt, combineCountWrap, h]
  | cons bb rest ih =>
    intro orig app hbounds hn2 hdisj u
    rw [List.map_cons, List.nodup_cons] at hn2
    have horigN : (orig.map Bucket.upperBound).Nodup := by rw [hbounds]; exact hn1
    cases hli : lastIdxWhere (fun b => decide (b.upperBound = bb.upperBound)) b1 with
    | some i =>
      rcases lastIdxWhere_get hli with ⟨xb, hget, hp⟩
      have hxb : xb.upperBound = bb.upperBound := of_decide_eq_true hp
      have hgetOrig : ∃ ox, orig.get? i = some ox ∧ ox.upperBound = xb.upperBound := by
        have h1 : (orig.map Bucket.upperBound).get? i =
            (b1.map Bucket.upperBound).get? i := by rw [hbounds]
        rw [List.get?_map, List.get?_map, hget] at h1
        cases hox : orig.get? i with
        | none => rw [hox] at h1; cases h1
        | some ox =>
          rw [hox] at h1
          exact ⟨ox, rfl, Option.some.inj h1⟩
      rcases hgetOrig with ⟨ox, hox, hoxb⟩
      rw [mergeBucketsAux, hli]
      have hrec := ih
        (modifyAt orig i (fun ob =>
          { ob with cumulativeCount := (ob.cumulativeCount + bb.cumulativeCount) % 2 ^ 64 }))
        app
        (by rw [modifyAt_map Bucket.upperBound _ (addCount_upperBound bb.cumulativeCount)]
            exact hbounds)
        hn2.2
        (fun x hx y hy => hdisj x hx y (List.mem_cons_of_mem _ hy))
      by_cases hu : u = bb.upperBound
      · subst hu
        have hmod := countAt_modify_eq (addCount_upperBound bb.cumulativeCount)
          orig i ox horigN hox (by rw [hoxb, hxb])
        have hrest : countAt rest bb.upperBound = none := countAt_none_iff.mpr (by
          intro x hx he
          exact hn2.1 (by rw [← he]; exact List.mem_map.mpr ⟨x, hx, rfl⟩))
        have hcons : countAt (bb :: rest) bb.upperBound = some bb.cumulativeCount := by
          rw [countAt, if_pos rfl]
        rw [hrec bb.upperBound, hcons, hrest, countAt_append, countAt_append,
          hmod.1, hmod.2]
        rfl
      · have hne : ox.upperBound ≠ u := by rw [hoxb, hxb]; exact fun he => hu he.symm
        have hmodne := countAt_modify_ne (addCount_upperBound bb.cumulativeCount)
          orig i ox hox hne
        have hcons : countAt (bb :: rest) u = countAt rest u := by
          rw [countAt, if_neg (fun he => hu he.symm)]
        rw [hrec u, hcons, countAt_append, countAt_append, hmodne]
    | none =>
      have hnob1 : ∀ x ∈ b1, x.upperBound ≠ bb.upperBound := by
        intro x hx
        have := lastIdxWhere_none hli x hx
        simpa using this
      rw [mergeBucketsAux, hli]
      have hrec := ih orig (app ++ [bb]) hbounds hn2.2 (by
        intro x hx y hy
        rcases List.mem_append.mp hx with h1 | h1
        · exact hdisj x h1 y (List.mem_cons_of_mem _ hy)
        · have hxbb : x = bb := by simpa using h1
          subst hxbb
          intro he
          exact hn2.1 (by rw [he]; exact List.mem_map.mpr ⟨y, hy, rfl⟩))
      by_cases hu : u = bb.upperBound
      · subst hu
        have horig : countAt orig bb.upperBound = none := countAt_none_iff.mpr (by
          intro x hx he
          have hxmem : x.upperBound ∈ b1.map Bucket.upperBound := by
            rw [← hbounds]; exact List.mem_map.mpr ⟨x, hx, rfl⟩
          rcases List.mem_map.mp hxmem with ⟨z, hz, hze⟩
          exact hnob1 z hz (by rw [hze, he]))
        have happ : countAt app bb.upperBound = none := countAt_none_iff.mpr
          (fun x hx => hdisj x hx bb (List.mem_cons_self _ _))
        have hrest : countAt rest bb.upperBound = none := countAt_none_iff.mpr (by
          intro x hx he
          exact hn2.1 (by rw [← he]; exact List.mem_map.mpr ⟨x, hx, rfl⟩))
        have hcons : countAt (bb :: rest) bb.upperBound = some bb.cumulativeCount := by
          rw [countAt, if_pos rfl]
        have hsingle : countAt [bb] bb.upperBound = some bb.cumulativeCount := by
          rw [countAt, if_pos rfl]
        rw [hrec bb.upperBound, hcons, hrest, countAt_append, countAt_append,
          countAt_append, horig, happ, hsingle]
        rfl
      · have hbbne : countAt [bb] u = none := by
          rw [countAt, if_neg (fun he => hu he.symm)]
          rfl
        have hcons : countAt (bb :: rest) u = countAt rest u := by
          rw [countAt, if_neg (fun he => hu he.symm)]
        rw [hrec u, hcons, countAt_append, countAt_append, countAt_append, hbbne]
        cases countAt orig u <;> cases countAt app u <;> rfl

/-- `mergeBuckets` per upper bound: cumulative counts are summed (with the
uint64 wrap) on bounds present in both lists and kept verbatim otherwise. -/
theorem mergeBuckets_countAt (b1 b2 : List Bucket)
    (hn1 : (b1.map Bucket.upperBound).Nodup)
    (hn2 : (b2.map Bucket.upperBound).Nodup) (u : Int) :
    countAt (mergeBuckets b1 b2) u = combineCountWrap (countAt b1 u) (countAt b2 u) := by
  have h := mergeBucketsAux_countAt b1 hn1 b2 b1 [] rfl hn2 (by intro x hx; cases hx) u
  rw [mergeBuckets]
  rw [h, List.append_nil]

/-- Claim C8: merging histogram `m2` into `m1` (both with pairwise-distinct
bucket bounds, and without uint64 overflow) adds the sample counts and sample
sums, and produces a bucket list holding exactly the union of the two bound
sets — a bound present in both gets the sum of the two cumulative counts, a
bound present in one keeps its original count. -/
theorem histogram_merge_bucket_union (m1 m2 : Metric) (h1 h2 : HistogramData)
    (hv1 : m1.value = .histogram h1) (hv2 : m2.value = .histogram h2)
    (hn1 : (h1.buckets.map Bucket.upperBound).Nodup)
    (hn2 : (h2.buckets.map Bucket.upperBound).Nodup)
    (hsc : h1.sampleCount + h2.sampleCount < 2 ^ 64)
    (hbk : ∀ x ∈ h1.buckets, ∀ y ∈ h2.buckets, x.upperBound = y.upperBound →
      x.cumulativeCount + y.cumulativeCount < 2 ^ 64) :
    ∃ h3, (mergeMetrics .histogram m1 m2).value = .histogram h3 ∧
      h3.sampleCount = h1.sampleCount + h2.sampleCount ∧
      h3.sampleSum = h1.sampleSum + h2.sampleSum ∧
      (∀ u, countAt h3.buckets u = combineCount (countAt h1.buckets u) (countAt h2.buckets u)) ∧
      (∀ u, (countAt h3.buckets u).isSome ↔
        ((countAt h1.buckets u).isSome ∨ (countAt h2.buckets u).isSome)) := by
  have hm : mergeMetrics .histogram m1 m2 =
      { m1 with value := MetricValue.histogram
                  (HistogramData.mk ((h1.sampleCount + h2.sampleCount) % 2 ^ 64)
                    (h1.sampleSum + h2.sampleSum)
                    (mergeBuckets h1.buckets h2.buckets)) } := by
    rw [mergeMetrics.eq_def, hv1, hv2]
  have hcount : ∀ u, countAt (mergeBuckets h1.buckets h2.buckets) u =
      combineCount (countAt h1.buckets u) (countAt h2.buckets u) := by
    intro u
    rw [mergeBuckets_countAt h1.buckets h2.buckets hn1 hn2 u]
    cases hc1 : countAt h1.buckets u with
    | none => cases hc2 : countAt h2.buckets u <;> rfl
    | some c1 =>
      cases hc2 : countAt h2.buckets u with
      | none => rfl
      | some c2 =>
        rcases countAt_some_mem hc1 with ⟨x, hx, hxu, hxc⟩
        rcases countAt_some_mem hc2 with ⟨y, hy, hyu, hyc⟩
        have hlt : c1 + c2 < 2 ^ 64 := by
          rw [← hxc, ← hyc]
          exact hbk x hx y hy (by rw [hxu, hyu])
        simp only [combineCountWrap, combineCount]
        rw [Nat.mod_eq_of_lt hlt]
  refine ⟨HistogramData.mk ((h1.sampleCount + h2.sampleCount) % 2 ^ 64)
      (h1.sampleSum + h2.sampleSum) (mergeBuckets h1.buckets h2.buckets),
    by rw [hm], Nat.mod_eq_of_lt hsc, rfl, hcount, ?_⟩
  intro u
  rw [hcount u]
  cases countAt h1.buckets u <;> cases countAt h2.buckets u <;> simp [combineCount]

/-- Claim C8, witness: the spec's histogram-merge scenario — counts 2 and 3,
sums 13 and 40, bounds `{20}` and `{20, 40}`. -/
theorem histogram_merge_bucket_union_witness :
    ∃ h3, (mergeMetrics .histogram c8m1 c8m2).value = .histogram h3 ∧
      h3.sampleCount = c8h1.sampleCount + c8h2.sampleCount ∧
      h3.sampleSum = c8h1.sampleSum + c8h2.sampleSum ∧
      (∀ u, countAt h3.buckets u =
        combineCount (countAt c8h1.buckets u) (countAt c8h2.buckets u)) ∧
      (∀ u, (countAt h3.buckets u).isSome ↔
        ((countAt c8h1.buckets u).isSome ∨ (countAt c8h2.buckets u).isSome)) :=
  histogram_merge_bucket_union c8m1 c8m2 c8h1 c8h2 rfl rfl
    (by decide) (by decide) (by decide) (by decide)

/-- Deleting one key leaves reads of other keys unchanged. -/
theorem lookupVal_eraseKey_ne {α : Type} {k n : String} (h : n ≠ k) :
    ∀ l : List (String × α), lookupVal (eraseKey l k) n = lookupVal l n := by
  intro l
  induction l with
  | nil => rfl
  | cons p rest ih =>
    obtain ⟨k1, v1⟩ := p
    by_cases hk1 : k1 = k
    · have hne : ¬ k1 = n := fun he => h (by rw [← he, hk1])
      rw [eraseKey, List.filter_cons, if_neg (by simp [hk1])]
      simp only [lookupVal, if_neg hne]
      exact ih
    · rw [eraseKey, List.filter_cons, if_pos (by simpa using hk1)]
      by_cases hn1 : k1 = n
      · simp [lookupVal, hn1]
      · simp only [lookupVal, if_neg hn1]
        exact ih

/-- Deleting an absent key is a no-op. -/
theorem eraseKey_of_not_mem {α : Type} {l : List (String × α)} {k : String}
    (h : k ∉ l.map Prod.fst) : eraseKey l k = l := by
  rw [eraseKey, List.filter_eq_self]
  intro p hp
  simp only [decide_eq_true_eq]
  intro he
  exact h (by rw [← he]; exact List.mem_map.mpr ⟨p, hp, rfl⟩)

/-- Filtering out the keys `ln :: ns` is deleting `ln` and then filtering out
the keys `ns`. -/
theorem filter_keys_cons {α : Type} (l : List (String × α)) (ln : String) (ns : List String) :
    l.filter (fun g => decide (g.1 ∉ ln :: ns)) =
      (eraseKey l ln).filter (fun g => decide (g.1 ∉ ns)) := by
  rw [eraseKey, List.filter_filter]
  refine List.filter_congr ?_
  intro p _
  by_cases h1 : p.1 = ln
  · simp [h1, List.mem_cons]
  · by_cases h2 : p.1 ∈ ns
    · simp [h1, h2, List.mem_cons]
    · simp [h1, h2, List.mem_cons]

/-- The label-pair walk of `SanitizeLabels`, characterized for a metric with
pairwise-distinct label names: every pair whose name is a pending grouping
label gets the grouping value, the leftover grouping labels are those whose
names the metric lacks, and the `instance` flag records whether the walk saw
an `instance` pair. -/
theorem sanitizePass_char :
    ∀ (ls notYet : List (String × String)) (hasInst : Bool),
      (ls.map Prod.fst).Nodup →
      sanitizePass notYet hasInst ls =
        (ls.map (fun p => (p.1, (lookupVal notYet p.1).getD p.2)),
         notYet.filter (fun g => decide (g.1 ∉ ls.map Prod.fst)),
         hasInst || ls.any (fun p => decide (p.1 = "instance"))) := by
  intro ls
  induction ls with
  | nil =>
    intro notYet hasInst _
    simp [sanitizePass]
  | cons hd rest ih =>
    obtain ⟨ln, lv⟩ := hd
    intro notYet hasInst hnd
    rw [List.map_cons, List.nodup_cons] at hnd
    have hNE : ∀ p ∈ rest, p.1 ≠ ln := by
      intro p hp he
      exact hnd.1 (by rw [← he]; exact List.mem_map.mpr ⟨p, hp, rfl⟩)
    have hV : (match lookupVal notYet ln with
        | some gv => gv
        | none => lv) = (lookupVal notYet ln).getD lv := by
      cases lookupVal notYet ln <;> rfl
    have hNY : (match lookupVal notYet ln with
        | some _ => eraseKey notYet ln
        | none => notYet) = eraseKey notYet ln := by
      cases hlk : lookupVal notYet ln with
      | some gv => rfl
      | none => exact (eraseKey_of_not_mem (lookupVal_none_iff.mp hlk)).symm
    have hLift : ∀ p ∈ rest, lookupVal (eraseKey notYet ln) p.1 = lookupVal notYet p.1 :=
      fun p hp => lookupVal_eraseKey_ne (hNE p hp) notYet
    simp only [sanitizePass, hV, hNY]
    by_cases hcond : ((eraseKey notYet ln).isEmpty &&
        (hasInst || decide (ln = "instance"))) = true
    · rw [if_pos hcond]
      rcases Bool.and_eq_true_iff.mp hcond with ⟨hempty, hInst1⟩
      have hempty2 : eraseKey notYet ln = [] := List.isEmpty_iff.mp hempty
      simp only [Prod.mk.injEq]
      refine ⟨?_, ?_, ?_⟩
      · rw [List.map_cons]
        refine congrArg _ ?_
        have hmapid : rest.map (fun p => (p.1, (lookupVal notYet p.1).getD p.2)) = rest := by
          have h1 : ∀ p ∈ rest, ((p.1, (lookupVal notYet p.1).getD p.2) :
              String × String) = p := by
            intro p hp
            rw [← hLift p hp, hempty2]
            rfl
          calc rest.map (fun p => (p.1, (lookupVal notYet p.1).getD p.2))
              = rest.map id := List.map_congr_left h1
            _ = rest := List.map_id rest
        exact hmapid.symm
      · rw [List.map_cons, filter_keys_cons, hempty2]
        rfl
      · simp only [List.any_cons, ← Bool.or_assoc, hInst1, Bool.true_or]
    · rw [if_neg hcond]
      rw [ih (eraseKey notYet ln) (hasInst || decide (ln = "instance")) hnd.2]
      simp only [Prod.mk.injEq]
      refine ⟨?_, ?_, ?_⟩
      · rw [List.map_cons]
        refine congrArg _ (List.map_congr_left ?_)
        intro p hp
        rw [hLift p hp]
      · rw [List.map_cons, filter_keys_cons]
      · rw [List.any_cons, ← Bool.or_assoc]

/-- A label list that is sorted, duplicate-free, already carries every
grouping label with the grouping value, and contains an `instance` label, is
a fixed point of the sanitizer. -/
theorem sanitizeMetricLabels_fixed (gl out : List (String × String))
    (hn : (out.map Prod.fst).Nodup)
    (hvals : ∀ p ∈ out, (lookupVal gl p.1).getD p.2 = p.2)
    (hkeys : ∀ g ∈ gl, g.1 ∈ out.map Prod.fst)
    (hinst : out.any (fun p => decide (p.1 = "instance")) = true)
    (hsorted : List.Sorted labelLe out) :
    sanitizeMetricLabels gl out = out := by
  simp only [sanitizeMetricLabels, sanitizePass_char out gl false hn, Bool.false_or]
  have hB : gl.filter (fun g => decide (g.1 ∉ out.map Prod.fst)) = [] := by
    rw [List.filter_eq_nil_iff]
    intro g hg
    simp [hkeys g hg]
  have hA : out.map (fun p => (p.1, (lookupVal gl p.1).getD p.2)) = out := by
    calc out.map (fun p => (p.1, (lookupVal gl p.1).getD p.2))
        = out.map id := List.map_congr_left (by
          intro p hp
          rw [hvals p hp]
          rfl)
      _ = out := List.map_id out
  rw [hA, hB, List.append_nil]
  have hc : ((out.any fun p => decide (p.1 = "instance")) ||
      List.any ([] : List (String × String)) (fun p => decide (p.1 = "instance"))) = true := by
    rw [hinst]
    rfl
  rw [if_pos hc]
  exact List.Sorted.insertionSort_eq hsorted

/-- Sanitizing a metric's labels is idempotent when the label names are
pairwise distinct and the grouping labels form a map (distinct keys). -/
theorem sanitizeMetricLabels_idem (gl ls : List (String × String))
    (hls : (ls.map Prod.fst).Nodup) (hgl : (gl.map Prod.fst).Nodup) :
    sanitizeMetricLabels gl (sanitizeMetricLabels gl ls) = sanitizeMetricLabels gl ls := by
  have hAfst : (ls.map (fun p => (p.1, (lookupVal gl p.1).getD p.2))).map Prod.fst
      = ls.map Prod.fst := by
    rw [List.map_map]
    exact List.map_congr_left (fun p _ => rfl)
  have hvalsA : ∀ p ∈ ls.map (fun p => (p.1, (lookupVal gl p.1).getD p.2)),
      (lookupVal gl p.1).getD p.2 = p.2 := by
    intro p hp
    rcases List.mem_map.mp hp with ⟨q, _, hqe⟩
    subst hqe
    cases lookupVal gl q.1 <;> rfl
  have hvalsB : ∀ p ∈ gl.filter (fun g => decide (g.1 ∉ ls.map Prod.fst)),
      (lookupVal gl p.1).getD p.2 = p.2 := by
    intro p hp
    obtain ⟨p1, p2⟩ := p
    rw [lookupVal_of_mem_nodup hgl (List.mem_of_mem_filter hp)]
    rfl
  have hBnodup : ((gl.filter (fun g => decide (g.1 ∉ ls.map Prod.fst))).map Prod.fst).Nodup :=
    List.Nodup.sublist (List.Sublist.map Prod.fst (List.filter_sublist _)) hgl
  have hBnotls : ∀ g ∈ gl.filter (fun g => decide (g.1 ∉ ls.map Prod.fst)),
      g.1 ∉ ls.map Prod.fst := by
    intro g hg
    have h2 := List.of_mem_filter hg
    simpa using h2
  have hABn : ((ls.map (fun p => (p.1, (lookupVal gl p.1).getD p.2)) ++
      gl.filter (fun g => decide (g.1 ∉ ls.map Prod.fst))).map Prod.fst).Nodup := by
    rw [List.map_append, List.nodup_append]
    refine ⟨hAfst ▸ hls, hBnodup, ?_⟩
    intro a haA haB
    rcases List.mem_map.mp haB with ⟨g, hgB, hge⟩
    exact hBnotls g hgB (by rw [hge]; exact hAfst ▸ haA)
  have hkeysAB : ∀ g ∈ gl, g.1 ∈ (ls.map (fun p => (p.1, (lookupVal gl p.1).getD p.2)) ++
      gl.filter (fun g => decide (g.1 ∉ ls.map Prod.fst))).map Prod.fst := by
    intro g hg
    rw [List.map_append]
    by_cases hmem : g.1 ∈ ls.map Prod.fst
    · exact List.mem_append.mpr (Or.inl (by rw [hAfst]; exact hmem))
    · refine List.mem_append.mpr (Or.inr ?_)
      exact List.mem_map.mpr ⟨g, List.mem_filter.mpr ⟨hg, by simpa using hmem⟩, rfl⟩
  by_cases hc : (ls.any (fun p => decide (p.1 = "instance")) ||
      (gl.filter (fun g => decide (g.1 ∉ ls.map Prod.fst))).any
        (fun g => decide (g.1 = "instance"))) = true
  · have hchar : sanitizeMetricLabels gl ls =
        sortByName (ls.map (fun p => (p.1, (lookupVal gl p.1).getD p.2)) ++
          gl.filter (fun g => decide (g.1 ∉ ls.map Prod.fst))) := by
      simp only [sanitizeMetricLabels, sanitizePass_char ls gl false hls, Bool.false_or]
      rw [if_pos hc]
    rw [hchar]
    have hperm := List.perm_insertionSort labelLe
      (ls.map (fun p => (p.1, (lookupVal gl p.1).getD p.2)) ++
        gl.filter (fun g => decide (g.1 ∉ ls.map Prod.fst)))
    refine sanitizeMetricLabels_fixed gl _ ?_ ?_ ?_ ?_ ?_
    · exact ((hperm.map Prod.fst).nodup_iff).mpr hABn
    · intro p hp
      rcases List.mem_append.mp (hperm.mem_iff.mp hp) with h | h
      · exact hvalsA p h
      · exact hvalsB p h
    · intro g hg
      exact (hperm.map Prod.fst).mem_iff.mpr (hkeysAB g hg)
    · rw [List.any_eq_true]
      have hcor : ls.any (fun p => decide (p.1 = "instance")) = true ∨
          (gl.filter (fun g => decide (g.1 ∉ ls.map Prod.fst))).any
            (fun g => decide (g.1 = "instance")) = true := by
        simpa using hc
      rcases hcor with h | h
      · rcases List.any_eq_true.mp h with ⟨q, hq, hqi⟩
        refine ⟨(q.1, (lookupVal gl q.1).getD q.2), ?_, hqi⟩
        exact hperm.mem_iff.mpr (List.mem_append.mpr
          (Or.inl (List.mem_map.mpr ⟨q, hq, rfl⟩)))
      · rcases List.any_eq_true.mp h with ⟨g, hgB, hgi⟩
        exact ⟨g, hperm.mem_iff.mpr (List.mem_append.mpr (Or.inr hgB)), hgi⟩
    · exact List.sorted_insertionSort labelLe _
  · have hno : ls.any (fun p => decide (p.1 = "instance")) = false ∧
        (gl.filter (fun g => decide (g.1 ∉ ls.map Prod.fst))).any
          (fun g => decide (g.1 = "instance")) = false := by
      constructor
      · cases h1 : ls.any (fun p => decide (p.1 = "instance")) with
        | false => rfl
        | true => exact absurd (by rw [h1]; rfl) hc
      · cases h2 : (gl.filter (fun g => decide (g.1 ∉ ls.map Prod.fst))).any
            (fun g => decide (g.1 = "instance")) with
        | false => rfl
        | true => exact absurd (by rw [h2, Bool.or_true]) hc
    have hglinst : lookupVal gl "instance" = none := by
      cases hlk : lookupVal gl "instance" with
      | none => rfl
      | some v =>
        have hmem := lookupVal_mem hlk
        have h1 : ("instance" : String) ∉ ls.map Prod.fst := by
          intro hmem2
          rcases List.mem_map.mp hmem2 with ⟨q, hq, hqe⟩
          have h3 := List.any_eq_false.mp hno.1 q hq
          rw [hqe] at h3
          simp at h3
        have hBmem : ("instance", v) ∈
            gl.filter (fun g => decide (g.1 ∉ ls.map Prod.fst)) :=
          List.mem_filter.mpr ⟨hmem, by simpa using h1⟩
        have h4 := List.any_eq_false.mp hno.2 _ hBmem
        simp at h4
    have hinstnotls : ("instance" : String) ∉ ls.map Prod.fst := by
      intro hmem2
      rcases List.mem_map.mp hmem2 with ⟨q, hq, hqe⟩
      have h3 := List.any_eq_false.mp hno.1 q hq
      rw [hqe] at h3
      simp at h3
    have hchar : sanitizeMetricLabels gl ls =
        sortByName ((ls.map (fun p => (p.1, (lookupVal gl p.1).getD p.2)) ++
          gl.filter (fun g => decide (g.1 ∉ ls.map Prod.fst))) ++ [("instance", "")]) := by
      simp only [sanitizeMetricLabels, sanitizePass_char ls gl false hls, Bool.false_or]
      rw [if_neg hc]
    rw [hchar]
    have hperm := List.perm_insertionSort labelLe
      ((ls.map (fun p => (p.1, (lookupVal gl p.1).getD p.2)) ++
        gl.filter (fun g => decide (g.1 ∉ ls.map Prod.fst))) ++ [("instance", "")])
    refine sanitizeMetricLabels_fixed gl _ ?_ ?_ ?_ ?_ ?_
    · refine ((hperm.map Prod.fst).nodup_iff).mpr ?_
      rw [List.map_append, List.nodup_append]
      refine ⟨hABn, by simp, ?_⟩
      intro a haAB haI
      have haI2 : a = "instance" := by simpa using haI
      subst haI2
      rw [List.map_append] at haAB
      rcases List.mem_append.mp haAB with h | h
      · exact hinstnotls (by rw [← hAfst]; exact h)
      · rcases List.mem_map.mp h with ⟨g, hgB, hge⟩
        have h3 := List.any_eq_false.mp hno.2 g hgB
        rw [hge] at h3
        simp at h3
    · intro p hp
      rcases List.mem_append.mp (hperm.mem_iff.mp hp) with h | h
      · rcases List.mem_append.mp h with h2 | h2
        · exact hvalsA p h2
        · exact hvalsB p h2
      · have hpe : p = ("instance", "") := by simpa using h
        subst hpe
        rw [hglinst]
        rfl
    · intro g hg
      refine (hperm.map Prod.fst).mem_iff.mpr ?_
      rw [List.map_append]
      exact List.mem_append.mpr (Or.inl (hkeysAB g hg))
    · rw [List.any_eq_true]
      refine ⟨("instance", ""), ?_, by simp⟩
      exact hperm.mem_iff.mpr (List.mem_append.mpr (Or.inr (by simp)))
    · exact List.sorted_insertionSort labelLe _

/-- Claim C9: sanitization is idempotent — for a metric family whose metrics
have pairwise-distinct label names and any grouping label map, sanitizing a
second time against the same grouping labels changes nothing: after one pass
every metric carries each grouping label with its group value plus an
`instance` label and is sorted by name. -/
theorem sanitize_idempotent (mf : MetricFamily) (gl : List (String × String))
    (hm : ∀ m ∈ mf.metrics, (m.labels.map Prod.fst).Nodup)
    (hgl : (gl.map Prod.fst).Nodup) :
    sanitizeLabels (sanitizeLabels mf gl) gl = sanitizeLabels mf gl := by
  simp only [sanitizeLabels, List.map_map]
  congr 1
  refine List.map_congr_left ?_
  intro m hm2
  simp only [Function.comp]
  rw [sanitizeMetricLabels_idem gl m.labels (hm m hm2) hgl]

/-- Claim C9, witness: sanitizing the one-metric counter family twice against
`{job=t}` equals sanitizing it once. -/
theorem sanitize_idempotent_witness :
    sanitizeLabels (sanitizeLabels (fooCounterFam 5) [("job", "t")]) [("job", "t")] =
      sanitizeLabels (fooCounterFam 5) [("job", "t")] :=
  sanitize_idempotent (fooCounterFam 5) [("job", "t")] (by decide) (by decide)

end Thor

